import Mathlib

/-!
Shallow embedding of the core of `rss.py` (tylerneylon/rss): the custom
XML-like serializer (`write_xml` with its json-encoded tree) and the 7date
codec (`tobase`, `frombase`, `to_datetime`, `to_string`).

Strings are modelled as `List Char`.  Python exceptions are modelled as an
explicit error type carried by `Except`.  Numeric loops from the source are
modelled with a structural fuel argument large enough to never run out on
the inputs the source's own assertions allow (`b > 1`).
-/

namespace Rss

/-- Kinds of Python exceptions the embedded code can raise.
`invalidDigit` is the `ValueError` raised inside `frombase` (it carries the
base and the full input string, as the Python message does);
`intParseError` is the `ValueError` from `int(...)`; `yearOutOfRange` is the
`ValueError` from `datetime(year, 1, 1)` when `year` is outside 1..9999;
`overflowError` is the `OverflowError` when date addition leaves the
supported year range; `assertionError` models a failed `assert`. -/
inductive PyErr where
  | invalidDigit (b : Nat) (s : List Char)
  | intParseError (s : List Char)
  | yearOutOfRange (y : Int)
  | overflowError
  | assertionError
deriving DecidableEq, Repr

/-- Python `str(d)` for a single digit value `0 ≤ d ≤ 9`: the character of
code point `48 + d`. -/
def digitChar (d : Nat) : Char := Char.ofNat (48 + d)

/-- The `while n > 0` loop of `tobase` (src/rss.py lines 199-202): collect
`n % b` and continue with `n // b`, producing the digits least-significant
first.  A fuel argument makes the recursion structural; fuel `n + 1` is
enough whenever `b ≥ 2` (the case the source's `assert b > 1` allows). -/
def tobaseLoop : Nat → Nat → Nat → List Nat
  | 0, _, _ => []
  | fuel + 1, n, b => if n = 0 then [] else n % b :: tobaseLoop fuel (n / b) b

/-- `tobase(n, b)` from src/rss.py lines 197-204: the digits of `n` in base
`b`, least-significant first, replaced by `[0]` when empty, then reversed
and written with decimal digit characters. -/
def tobase (n b : Nat) : List Char :=
  ((if tobaseLoop (n + 1) n b = [] then [0] else tobaseLoop (n + 1) n b).reverse).map digitChar

/-- The `for char in s` loop of `frombase` (src/rss.py lines 212-217):
multiply the accumulator by `b`, compute `d = ord(char) - ord('0')` (an
integer, possibly negative), raise `ValueError` unless `0 ≤ d < b`, else
add `d`.  The first argument `s` is the full input, used only in the
error value (as in the Python message). -/
def frombaseLoop (b : Nat) (s : List Char) : Nat → List Char → Except PyErr Nat
  | n, [] => .ok n
  | n, c :: cs =>
    let d : Int := (c.toNat : Int) - 48
    if 0 ≤ d ∧ d < (b : Int) then frombaseLoop b s (n * b + d.toNat) cs
    else .error (.invalidDigit b s)

/-- `frombase(s, b)` from src/rss.py lines 209-218, with its
`assert 1 < b <= 10` modelled as an `assertionError`. -/
def frombase (s : List Char) (b : Nat) : Except PyErr Nat :=
  if 1 < b ∧ b ≤ 10 then frombaseLoop b s 0 s else .error .assertionError

/-- The ASCII whitespace characters Python's `str.strip()` removes (the
unicode whitespace code points outside ASCII are not modelled; no claim
touches them). -/
def isPySpace (c : Char) : Bool :=
  c == ' ' || c == '\t' || c == '\n' || c == '\r' || c == '\x0b' || c == '\x0c'

/-- Python `s.strip()`: drop leading and trailing whitespace. -/
def pyStrip (s : List Char) : List Char :=
  ((s.dropWhile isPySpace).reverse.dropWhile isPySpace).reverse

/-- Value of a list of decimal digit characters, most significant first. -/
def digitsVal (cs : List Char) : Nat :=
  cs.foldl (fun a c => a * 10 + (c.toNat - 48)) 0

/-- Python `int(s)` on a string: strip whitespace, allow one optional sign,
then require a non-empty run of decimal digits (PEP 515 underscores are not
modelled; no claim uses them).  Raises `ValueError` otherwise. -/
def pyInt (s : List Char) : Except PyErr Int :=
  let t := pyStrip s
  let signMag : Int × List Char :=
    if t.head? = some '+' then (1, t.tail)
    else if t.head? = some '-' then (-1, t.tail)
    else (1, t)
  if signMag.2 ≠ [] ∧ signMag.2.all Char.isDigit then
    .ok (signMag.1 * (digitsVal signMag.2 : Int))
  else .error (.intParseError s)

/-- The Gregorian leap-year rule used by Python's `datetime`. -/
def isleap (y : Nat) : Bool := y % 4 == 0 && (y % 100 != 0 || y % 400 == 0)

/-- Number of days in year `y`. -/
def daysInYear (y : Nat) : Nat := if isleap y then 366 else 365

/-- A Python `datetime` at local midnight, represented by its year and its
0-indexed day of year.  This is a bijective image of the dates Python's
`datetime` can hold (which stores year, month, day); `mkdate` below embeds
the month/day constructor. -/
structure PyDatetime where
  year : Nat
  yday0 : Nat
deriving DecidableEq, Repr

/-- Length of month `m` (1-12) in year `y`, as in the Gregorian calendar. -/
def daysInMonth (y m : Nat) : Nat :=
  if m = 2 then (if isleap y then 29 else 28)
  else if m = 4 ∨ m = 6 ∨ m = 9 ∨ m = 11 then 30
  else 31

/-- The cumulative days before month `m` in a non-leap year, as in
CPython's precomputed `_DAYS_BEFORE_MONTH` table. -/
def daysBeforeMonthTable (m : Nat) : Nat :=
  if m = 1 then 0 else if m = 2 then 31 else if m = 3 then 59
  else if m = 4 then 90 else if m = 5 then 120 else if m = 6 then 151
  else if m = 7 then 181 else if m = 8 then 212 else if m = 9 then 243
  else if m = 10 then 273 else if m = 11 then 304 else if m = 12 then 334
  else 0

/-- Days in year `y` that precede month `m` (1-12): the table value plus
one when the month is past February of a leap year (CPython's
`_days_before_month`). -/
def daysBeforeMonth (y m : Nat) : Nat :=
  daysBeforeMonthTable m + (if 2 < m ∧ isleap y then 1 else 0)

/-- Python `datetime(y, m, d)` as a year with 0-indexed day of year (valid
for `1 ≤ m ≤ 12` and `1 ≤ d ≤ daysInMonth y m`). -/
def mkdate (y m d : Nat) : PyDatetime := ⟨y, daysBeforeMonth y m + (d - 1)⟩

/-- Python `time.timetuple().tm_yday`: the 1-indexed day of year. -/
def tm_yday (t : PyDatetime) : Nat := t.yday0 + 1

/-- Normalisation loop for `datetime(y, 1, 1) + timedelta(days = n)`: carry
whole years while `n` is at least the length of the current year.  Fuel
`n + 1` is enough since every step removes at least 365 days. -/
def addDaysLoop : Nat → Nat → Nat → Nat × Nat
  | 0, y, n => (y, n)
  | fuel + 1, y, n =>
    if n < daysInYear y then (y, n) else addDaysLoop fuel (y + 1) (n - daysInYear y)

/-- Lines 234-237 of `to_datetime` in src/rss.py: convert the day string
from base 7, the year string with `int` (in that order, as in the source),
then build `datetime(year_num, 1, 1) + timedelta(days=day_num)`.  The
`datetime` constructor's year range check (1..9999) and the overflow check
of the addition are part of the model. -/
def decodeParts (day_str year_str : List Char) : Except PyErr PyDatetime :=
  match frombase day_str 7 with
  | .error e => .error e
  | .ok day_num =>
    match pyInt year_str with
    | .error e => .error e
    | .ok year_num =>
      if 1 ≤ year_num ∧ year_num ≤ 9999 then
        let r := addDaysLoop (day_num + 1) year_num.toNat day_num
        if r.1 ≤ 9999 then .ok ⟨r.1, r.2⟩ else .error .overflowError
      else .error (.yearOutOfRange year_num)

/-- `to_datetime(sevendate_str)` from src/rss.py lines 223-237: strip the
input; `dot = find(".")`; if `dot == -1` treat the input as digital
`YYYY-DDDD` (year = chars 0-3, day = chars from index 5 on), else split at
the first `.` (day before the dot, year after); then decode the parts. -/
def to_datetime (sevendate_str : List Char) : Except PyErr PyDatetime :=
  let t := pyStrip sevendate_str
  let parts : List Char × List Char :=
    match t.findIdx? (fun c => c == '.') with
    | none => (t.drop 5, t.take 4)
    | some dot => (t.take dot, t.drop (dot + 1))
  decodeParts parts.1 parts.2

/-- The `parse` contract as the spec words it (format detection rule):
strip leading/trailing whitespace from the whole input; if the result
contains a literal `.` treat it as dotted format and split on the first
`.`, everything before the dot being the base-7 day string and everything
after the decimal year string; otherwise treat it as digital format, the
first 4 characters being the decimal year and the substring starting at
index 5 the base-7 day string.  Decoding of the two parts is shared with
`to_datetime`. -/
def parseSpec (s : List Char) : Except PyErr PyDatetime :=
  let t := pyStrip s
  let parts : List Char × List Char :=
    if t.contains '.' then
      (t.takeWhile (fun c => !(c == '.')), (t.dropWhile (fun c => !(c == '.'))).tail)
    else (t.drop 5, t.take 4)
  decodeParts parts.1 parts.2

/-- Python `str(n)` for a natural number: its decimal digits. -/
def pyStr (n : Nat) : List Char := tobase n 10

/-- The format specifier `0>4s`: left-pad with `0` to minimum width 4
(strings already of length ≥ 4 are unchanged, never truncated). -/
def padTo4 (s : List Char) : List Char := List.replicate (4 - s.length) '0' ++ s

/-- `to_string(time, do_use_digital_format)` from src/rss.py lines 241-252
for an explicit `time` (the `time=None` default calls `datetime.now()`,
which depends on the environment and is not modelled): the year in decimal
and the 0-indexed day of year in base 7, joined as `YYYY-DDDD` (day padded
to width 4) in digital format or `D+.YYYY` in standard format. -/
def to_string (time : PyDatetime) (do_use_digital_format : Bool) : List Char :=
  let year := pyStr time.year
  let day := tobase (tm_yday time - 1) 7
  if do_use_digital_format then year ++ '-' :: padTo4 day
  else day ++ '.' :: year

/-- A value the replacement `write_xml` (src/rss.py lines 159-189) can
receive: a Python dict as built by `make_new_xml_tree` and `add_elt` (keys
`tag` and `value` — the latter always a list — plus optional `text` and
`attribs`, present only when non-empty at creation, though `write_xml`
itself only tests key presence), a string, or a list of such values. -/
inductive Jx where
  | jstr (s : List Char)
  | jlist (items : List Jx)
  | jdict (tag : List Char) (attribs : Option (List (List Char × List Char)))
      (text : Option (List Char)) (value : List Jx)
deriving Repr

/-- The attribute string of src/rss.py line 171: `key="value"` items joined
by single spaces, in the dict's insertion order. -/
def attribStr (al : List (List Char × List Char)) : List Char :=
  List.intercalate [' '] (al.map (fun kv => kv.1 ++ '=' :: '"' :: kv.2 ++ ['"']))

/-- The opening tag (src/rss.py lines 168-172): `<tag>` when the `attribs`
key is absent; `<tag k1="v1" ...>` when it is present (with the space after
the tag emitted even for an empty attrib dict). -/
def tagString (tag : List Char) (attribs : Option (List (List Char × List Char))) : List Char :=
  match attribs with
  | none => '<' :: tag ++ ['>']
  | some al => '<' :: tag ++ ' ' :: attribStr al ++ ['>']

mutual
/-- A non-root call of `write_xml` (src/rss.py lines 166-189) on value `x`
with indentation prefix `pre`: returns the text written and the
`do_need_post_indent` flag the call returns.  The dict branch picks the
`text` payload when that key is present (otherwise the `value` list),
recurses on it, re-writes the prefix when the recursive call returned True,
and closes with `</tag>` plus a newline; a string is written verbatim; a
non-empty list writes a newline and each item at `pre` plus two spaces and
returns True. -/
def write_xmlGo : Jx → List Char → List Char × Bool
  | .jstr s, _ => (s, false)
  | .jlist [], _ => ([], false)
  | .jlist (x :: xs), pre => ('\n' :: write_xmlItems (x :: xs) (pre ++ [' ', ' ']), true)
  | .jdict tag attribs text value, pre =>
    let r : List Char × Bool :=
      match text with
      | some t => write_xmlGo (.jstr t) pre
      | none => write_xmlGo (.jlist value) pre
    (pre ++ tagString tag attribs ++ r.1 ++ (if r.2 then pre else []) ++
      ('<' :: '/' :: tag ++ ['>', '\n']), false)
termination_by x _ => sizeOf x
decreasing_by all_goals (simp_wf <;> omega)

/-- The `for item in xml_as_json` loop (src/rss.py lines 185-186). -/
def write_xmlItems : List Jx → List Char → List Char
  | [], _ => []
  | x :: xs, pre => (write_xmlGo x pre).1 ++ write_xmlItems xs pre
termination_by l _ => sizeOf l
decreasing_by all_goals (simp_wf <;> omega)
end

/-- The declaration line written by the root call (src/rss.py line 164). -/
def xmlDecl : List Char :=
  ("<?xml version=\x271.0\x27 encoding=\x27utf-8\x27?>\n").toList

/-- The root call `write_xml(tree, f)` (src/rss.py lines 159-189, with
`prefix=None`): write the declaration line, then the tree with the empty
prefix.  File handling is dropped; the model returns the written text. -/
def write_xml (x : Jx) : List Char := xmlDecl ++ (write_xmlGo x []).1

/-! ## Numeral lemmas -/

theorem digitChar_toNat {d : Nat} (h : d < 10) : (digitChar d).toNat = 48 + d := by
  interval_cases d <;> decide

theorem tobaseLoop_mem_lt {b : Nat} (hb : 2 ≤ b) :
    ∀ fuel n, n < fuel → ∀ d ∈ tobaseLoop fuel n b, d < b := by
  intro fuel
  induction fuel with
  | zero => intro n hn; omega
  | succ f ih =>
    intro n hn d hd
    simp only [tobaseLoop] at hd
    by_cases h0 : n = 0
    · simp [h0] at hd
    · rw [if_neg h0] at hd
      rcases List.mem_cons.mp hd with rfl | hd
      · exact Nat.mod_lt _ (by omega)
      · refine ih (n / b) ?_ d hd
        have := Nat.div_lt_self (Nat.pos_of_ne_zero h0) hb
        omega

theorem tobaseLoop_foldr {b : Nat} (hb : 2 ≤ b) :
    ∀ fuel n, n < fuel →
      (tobaseLoop fuel n b).foldr (fun d acc => acc * b + d) 0 = n := by
  intro fuel
  induction fuel with
  | zero => intro n hn; omega
  | succ f ih =>
    intro n hn
    simp only [tobaseLoop]
    by_cases h0 : n = 0
    · simp [h0]
    · rw [if_neg h0, List.foldr_cons]
      have hrec : n / b < f := by
        have := Nat.div_lt_self (Nat.pos_of_ne_zero h0) hb
        omega
      rw [ih (n / b) hrec, Nat.mul_comm]
      exact Nat.div_add_mod n b

theorem tobase_mem_toNat {n b : Nat} (hb : 2 ≤ b) (hb10 : b ≤ 10) :
    ∀ c ∈ tobase n b, 48 ≤ c.toNat ∧ c.toNat < 48 + b := by
  intro c hc
  simp only [tobase, List.mem_map, List.mem_reverse] at hc
  obtain ⟨d, hd, rfl⟩ := hc
  have hdb : d < b := by
    by_cases hnil : tobaseLoop (n + 1) n b = []
    · rw [if_pos hnil] at hd
      simp at hd
      omega
    · rw [if_neg hnil] at hd
      exact tobaseLoop_mem_lt hb (n + 1) n (by omega) d hd
  rw [digitChar_toNat (by omega)]
  omega

theorem tobase_foldl {n b : Nat} (hb : 2 ≤ b) (hb10 : b ≤ 10) :
    (tobase n b).foldl (fun a c => a * b + (c.toNat - 48)) 0 = n := by
  simp only [tobase]
  rw [List.foldl_map]
  rw [List.foldl_ext _ (fun a d => a * b + d) 0 (by
    intro a d hd
    simp only [List.mem_reverse] at hd
    have hdb : d < b := by
      by_cases hnil : tobaseLoop (n + 1) n b = []
      · rw [if_pos hnil] at hd
        simp at hd
        omega
      · rw [if_neg hnil] at hd
        exact tobaseLoop_mem_lt hb (n + 1) n (by omega) d hd
    show a * b + ((digitChar d).toNat - 48) = a * b + d
    rw [digitChar_toNat (by omega)]
    omega)]
  rw [List.foldl_reverse]
  by_cases h0 : n = 0
  · subst h0
    simp [tobaseLoop]
  · have hnil : tobaseLoop (n + 1) n b ≠ [] := by
      simp [tobaseLoop, h0]
    rw [if_neg hnil]
    exact tobaseLoop_foldr hb (n + 1) n (by omega)

theorem frombaseLoop_ok (b : Nat) (s : List Char) :
    ∀ cs n, (∀ c ∈ cs, 48 ≤ c.toNat ∧ c.toNat < 48 + b) →
      frombaseLoop b s n cs =
        Except.ok (cs.foldl (fun a c => a * b + (c.toNat - 48)) n) := by
  intro cs
  induction cs with
  | nil => intro n _; simp [frombaseLoop]
  | cons c cs ih =>
    intro n h
    have hc := h c (List.mem_cons_self c cs)
    simp only [frombaseLoop]
    rw [if_pos (by constructor <;> omega)]
    have hcast : ((c.toNat : Int) - 48).toNat = c.toNat - 48 := by omega
    rw [hcast, List.foldl_cons]
    exact ih _ (fun x hx => h x (List.mem_cons_of_mem c hx))

theorem frombaseLoop_err (b : Nat) (s : List Char) :
    ∀ cs n, (∃ c ∈ cs, ¬(0 ≤ (c.toNat : Int) - 48 ∧ (c.toNat : Int) - 48 < (b : Int))) →
      frombaseLoop b s n cs = Except.error (.invalidDigit b s) := by
  intro cs
  induction cs with
  | nil => rintro n ⟨c, hc, _⟩; simp at hc
  | cons c cs ih =>
    rintro n ⟨x, hx, hbad⟩
    by_cases hcok : 0 ≤ (c.toNat : Int) - 48 ∧ (c.toNat : Int) - 48 < (b : Int)
    · simp only [frombaseLoop]
      rw [if_pos hcok]
      apply ih
      rcases List.mem_cons.mp hx with rfl | hx
      · exact absurd hcok hbad
      · exact ⟨x, hx, hbad⟩
    · simp only [frombaseLoop]
      rw [if_neg hcok]

theorem frombase_tobase {n b : Nat} (hb : 2 ≤ b) (hb10 : b ≤ 10) :
    frombase (tobase n b) b = Except.ok n := by
  rw [frombase, if_pos ⟨by omega, hb10⟩,
    frombaseLoop_ok b _ _ 0 (tobase_mem_toNat hb hb10)]
  rw [tobase_foldl hb hb10]

/-! ## Claim C4 -/

/-- C4: for every integer n in [0, 1000] and every base in {2,...,9},
from_base(to_base(n, base), base) == n; in particular to_base and
from_base are exact inverses for all n in [0, 366] at base 7. -/
theorem roundtrip_base_conversion :
    (∀ n b : Nat, n ≤ 1000 → 2 ≤ b → b ≤ 9 →
      frombase (tobase n b) b = Except.ok n) ∧
    (∀ n : Nat, n ≤ 366 → frombase (tobase n 7) 7 = Except.ok n) := by
  constructor
  · intro n b _ h2 h3
    exact frombase_tobase h2 (by omega)
  · intro n _
    exact frombase_tobase (by omega) (by omega)

/-- Witness for C4 at n = 366, base = 7. -/
theorem roundtrip_base_conversion_witness :
    366 ≤ 1000 ∧ frombase (tobase 366 7) 7 = Except.ok 366 :=
  ⟨by decide, roundtrip_base_conversion.1 366 7 (by decide) (by decide) (by decide)⟩

/-! ## Claim C6 -/

/-- C6: from_base(s, base) raises an InvalidDigit error exactly when some
character of s has digit value ≥ base or is not a decimal digit (code
point outside 48..57); in particular from_base("9", 7) raises
InvalidDigit. -/
theorem frombase_invalidDigit_iff :
    (∀ (s : List Char) (b : Nat), 1 < b → b ≤ 10 →
      (frombase s b = Except.error (.invalidDigit b s) ↔
        ∃ c ∈ s, b ≤ c.toNat - 48 ∨ c.toNat < 48 ∨ 57 < c.toNat)) ∧
    frombase ['9'] 7 = Except.error (.invalidDigit 7 ['9']) := by
  constructor
  · intro s b hb1 hb2
    constructor
    · intro herr
      by_contra hno
      push_neg at hno
      have hall : ∀ c ∈ s, 48 ≤ c.toNat ∧ c.toNat < 48 + b := by
        intro c hc
        have := hno c hc
        omega
      rw [frombase, if_pos ⟨hb1, hb2⟩, frombaseLoop_ok b s s 0 hall] at herr
      simp at herr
    · rintro ⟨c, hc, hbad⟩
      rw [frombase, if_pos ⟨hb1, hb2⟩]
      exact frombaseLoop_err b s s 0 ⟨c, hc, by omega⟩
  · rfl

/-- Witness for C6: the iff instantiated at s = "9", b = 7 yields the
concrete rejection. -/
theorem frombase_invalidDigit_iff_witness :
    frombase ['9'] 7 = Except.error (.invalidDigit 7 ['9']) :=
  (frombase_invalidDigit_iff.1 ['9'] 7 (by decide) (by decide)).mpr
    ⟨'9', by decide, by decide⟩

/-! ## Character and string helpers -/

theorem isDigit_of_toNat (c : Char) (h1 : 48 ≤ c.toNat) (h2 : c.toNat ≤ 57) :
    c.isDigit = true := by
  simp only [Char.isDigit, Bool.and_eq_true, decide_eq_true_eq]
  have he : c.toNat = c.val.toBitVec.toNat := rfl
  constructor
  · rw [ge_iff_le, UInt32.le_def, BitVec.le_def]
    have h0 : (48 : UInt32).toBitVec.toNat = 48 := rfl
    omega
  · rw [UInt32.le_def, BitVec.le_def]
    have h9 : (57 : UInt32).toBitVec.toNat = 57 := rfl
    omega

theorem digit_not_space {c : Char} (h48 : 48 ≤ c.toNat) (h57 : c.toNat ≤ 57) :
    isPySpace c = false := by
  by_contra hb
  rw [Bool.not_eq_false] at hb
  simp only [isPySpace, Bool.or_eq_true, beq_iff_eq] at hb
  rcases hb with ((((rfl | rfl) | rfl) | rfl) | rfl) | rfl <;> exact absurd h48 (by decide)

theorem digit_not_dot {c : Char} (h48 : 48 ≤ c.toNat) (h57 : c.toNat ≤ 57) :
    (c == '.') = false := by
  by_contra hb
  rw [Bool.not_eq_false, beq_iff_eq] at hb
  subst hb
  exact absurd h48 (by decide)

theorem dropWhile_eq_self_of_not {p : Char → Bool} {s : List Char}
    (h : ∀ c ∈ s, p c = false) : s.dropWhile p = s := by
  cases s with
  | nil => rfl
  | cons c t =>
    rw [List.dropWhile_cons, h c (List.mem_cons_self c t)]
    simp

theorem pyStrip_eq_self {s : List Char} (h : ∀ c ∈ s, isPySpace c = false) :
    pyStrip s = s := by
  rw [pyStrip, dropWhile_eq_self_of_not h,
    dropWhile_eq_self_of_not (fun c hc => h c (List.mem_reverse.mp hc)),
    List.reverse_reverse]

theorem tobase_ne_nil (n b : Nat) : tobase n b ≠ [] := by
  simp only [tobase]
  split <;> simp_all

/-! ## Length of numerals -/

theorem tobaseLoop_length_le {b : Nat} (hb : 2 ≤ b) :
    ∀ fuel n L, n < fuel → n < b ^ L → (tobaseLoop fuel n b).length ≤ L := by
  intro fuel
  induction fuel with
  | zero => intro n L hn _; omega
  | succ f ih =>
    intro n L hn hL
    simp only [tobaseLoop]
    by_cases h0 : n = 0
    · simp [h0]
    · rw [if_neg h0, List.length_cons]
      cases L with
      | zero => simp at hL; omega
      | succ L =>
        have hdiv : n / b < b ^ L := by
          rw [Nat.div_lt_iff_lt_mul (by omega)]
          calc n < b ^ (L + 1) := hL
          _ = b ^ L * b := by rw [pow_succ]
        have hf : n / b < f := by
          have := Nat.div_lt_self (Nat.pos_of_ne_zero h0) hb
          omega
        have := ih (n / b) L hf hdiv
        omega

theorem tobaseLoop_length_ge {b : Nat} (hb : 2 ≤ b) :
    ∀ fuel n L, n < fuel → b ^ L ≤ n → L + 1 ≤ (tobaseLoop fuel n b).length := by
  intro fuel
  induction fuel with
  | zero => intro n L hn _; omega
  | succ f ih =>
    intro n L hn hL
    have h0 : n ≠ 0 := by
      have : 1 ≤ b ^ L := Nat.one_le_pow L b (by omega)
      omega
    simp only [tobaseLoop]
    rw [if_neg h0, List.length_cons]
    cases L with
    | zero => omega
    | succ L =>
      have hdiv : b ^ L ≤ n / b := by
        rw [Nat.le_div_iff_mul_le (by omega)]
        calc b ^ L * b = b ^ (L + 1) := (pow_succ b L).symm
        _ ≤ n := hL
      have hf : n / b < f := by
        have := Nat.div_lt_self (Nat.pos_of_ne_zero h0) hb
        omega
      have := ih (n / b) L hf hdiv
      omega

theorem tobase_length_le {n b L : Nat} (hb : 2 ≤ b) (hL : 1 ≤ L) (h : n < b ^ L) :
    (tobase n b).length ≤ L := by
  simp only [tobase, List.length_map, List.length_reverse]
  split
  · simpa using hL
  · exact tobaseLoop_length_le hb (n + 1) n L (by omega) h

theorem tobase_length_eq {n b L : Nat} (hb : 2 ≤ b) (hge : b ^ L ≤ n)
    (hlt : n < b ^ (L + 1)) : (tobase n b).length = L + 1 := by
  have h0 : n ≠ 0 := by
    have : 1 ≤ b ^ L := Nat.one_le_pow L b (by omega)
    omega
  have hnil : tobaseLoop (n + 1) n b ≠ [] := by
    simp [tobaseLoop, h0]
  simp only [tobase, List.length_map, List.length_reverse]
  rw [if_neg hnil]
  have hle := tobaseLoop_length_le hb (n + 1) n (L + 1) (by omega) hlt
  have hge2 := tobaseLoop_length_ge hb (n + 1) n L (by omega) hge
  omega

theorem pyStr_length_four {y : Nat} (h1 : 1000 ≤ y) (h2 : y ≤ 9999) :
    (pyStr y).length = 4 := by
  have := tobase_length_eq (n := y) (b := 10) (L := 3) (by omega)
    (by norm_num; omega) (by norm_num; omega)
  simpa [pyStr] using this

/-! ## Padded parsing and pyInt -/

theorem foldl_replicate_zero (m b : Nat) :
    (List.replicate m '0').foldl (fun a c => a * b + (c.toNat - 48)) 0 = 0 := by
  induction m with
  | zero => rfl
  | succ k ih =>
    rw [List.replicate_succ, List.foldl_cons,
      show (('0').toNat : Nat) = 48 from rfl]
    simpa using ih

theorem frombase_padTo4 {s : List Char} {b : Nat} (hb1 : 1 < b) (hb2 : b ≤ 10)
    (hdig : ∀ c ∈ s, 48 ≤ c.toNat ∧ c.toNat < 48 + b) :
    frombase (padTo4 s) b = frombase s b := by
  rw [frombase, frombase, if_pos ⟨hb1, hb2⟩, if_pos ⟨hb1, hb2⟩]
  have hall : ∀ c ∈ padTo4 s, 48 ≤ c.toNat ∧ c.toNat < 48 + b := by
    intro c hc
    simp only [padTo4, List.mem_append, List.mem_replicate] at hc
    rcases hc with ⟨_, rfl⟩ | hc
    · exact ⟨by decide, by rw [show (('0').toNat : Nat) = 48 from rfl]; omega⟩
    · exact hdig c hc
  rw [frombaseLoop_ok b _ _ 0 hall, frombaseLoop_ok b _ _ 0 hdig]
  congr 1
  rw [padTo4, List.foldl_append, foldl_replicate_zero]

theorem digitsVal_pyStr (y : Nat) : digitsVal (pyStr y) = y := by
  rw [digitsVal, pyStr]
  exact tobase_foldl (by omega) (by omega)

theorem pyStr_digits (y : Nat) :
    ∀ c ∈ pyStr y, 48 ≤ c.toNat ∧ c.toNat ≤ 57 := by
  intro c hc
  have := tobase_mem_toNat (n := y) (b := 10) (by omega) (by omega) c hc
  omega

theorem pyInt_pyStr (y : Nat) : pyInt (pyStr y) = Except.ok (y : Int) := by
  have hdig := pyStr_digits y
  have hstrip : pyStrip (pyStr y) = pyStr y :=
    pyStrip_eq_self (fun c hc => digit_not_space (hdig c hc).1 (hdig c hc).2)
  obtain ⟨c, cs, hcons⟩ : ∃ c cs, pyStr y = c :: cs := by
    cases h : pyStr y with
    | nil => exact absurd h (tobase_ne_nil y 10)
    | cons c cs => exact ⟨c, cs, rfl⟩
  have hc := hdig c (by rw [hcons]; exact List.mem_cons_self c cs)
  have hval : digitsVal (c :: cs) = y := by rw [← hcons, digitsVal_pyStr]
  rw [hcons] at hstrip
  rw [hcons]
  simp only [pyInt, hstrip]
  have hplus : ¬((c :: cs).head? = some ('+')) := by
    simp only [List.head?_cons, Option.some.injEq]
    intro h
    subst h
    exact absurd hc.1 (by decide)
  have hminus : ¬((c :: cs).head? = some ('-')) := by
    simp only [List.head?_cons, Option.some.injEq]
    intro h
    subst h
    exact absurd hc.1 (by decide)
  rw [if_neg hplus, if_neg hminus]
  rw [if_pos ⟨by simp, by
      rw [List.all_eq_true]
      intro x hx
      have hxd := hdig x (by rw [hcons]; exact hx)
      exact isDigit_of_toNat x hxd.1 hxd.2⟩]
  rw [hval]
  simp

/-! ## Date helpers -/

theorem daysInYear_pos (y : Nat) : 0 < daysInYear y := by
  rw [daysInYear]
  split <;> omega

theorem addDaysLoop_succ (fuel y n : Nat) :
    addDaysLoop (fuel + 1) y n =
      if n < daysInYear y then (y, n) else addDaysLoop fuel (y + 1) (n - daysInYear y) := rfl

theorem addDaysLoop_of_lt {y n : Nat} (h : n < daysInYear y) (fuel : Nat) :
    addDaysLoop (fuel + 1) y n = (y, n) := by
  rw [addDaysLoop_succ, if_pos h]

/-! ## Claim C8 -/

/-- C8: known values hold — to_base(0,7) = "0", to_base(49,7) = "100",
format(date(2024,1,1)) = "0.2024" dotted and "2024-0000" digital,
parse("0.2024") and parse("2024-0000") both yield January 1 2024, and the
digital format left-pads the base-7 day string with zeros to width 4 for
every possible day-of-year value. -/
theorem known_values :
    tobase 0 7 = ("0").toList ∧
    tobase 49 7 = ("100").toList ∧
    to_string (mkdate 2024 1 1) false = ("0.2024").toList ∧
    to_string (mkdate 2024 1 1) true = ("2024-0000").toList ∧
    to_datetime (("0.2024").toList) = Except.ok (mkdate 2024 1 1) ∧
    to_datetime (("2024-0000").toList) = Except.ok (mkdate 2024 1 1) ∧
    (∀ y k : Nat, k ≤ 366 →
      to_string ⟨y, k⟩ true = pyStr y ++ '-' :: padTo4 (tobase k 7) ∧
      (padTo4 (tobase k 7)).length = 4) := by
  refine ⟨rfl, rfl, rfl, rfl, rfl, rfl, ?_⟩
  intro y k hk
  constructor
  · rfl
  · have hlen : (tobase k 7).length ≤ 4 :=
      tobase_length_le (by omega) (by omega) (by norm_num; omega)
    simp only [padTo4, List.length_append, List.length_replicate]
    omega

/-- Witness for C8's padding clause at y = 2024, k = 365. -/
theorem known_values_witness :
    to_string ⟨2024, 365⟩ true = pyStr 2024 ++ '-' :: padTo4 (tobase 365 7) ∧
    (padTo4 (tobase 365 7)).length = 4 :=
  known_values.2.2.2.2.2.2 2024 365 (by decide)

/-! ## Claim C9 -/

/-- C9: the day-of-year encoded by format equals the ordinal day within
the year minus 1 — to_string writes tm_yday - 1 in base 7, January 1
encodes as day 0, and December 31 encodes as 365 in a leap year and 364
otherwise. -/
theorem dayofyear_encoding :
    (∀ t : PyDatetime,
      to_string t false = tobase (tm_yday t - 1) 7 ++ '.' :: pyStr t.year) ∧
    (∀ y : Nat, (mkdate y 1 1).yday0 = 0) ∧
    (∀ y : Nat, isleap y = true → (mkdate y 12 31).yday0 = 365) ∧
    (∀ y : Nat, isleap y = false → (mkdate y 12 31).yday0 = 364) := by
  refine ⟨fun t => rfl, fun y => rfl, ?_, ?_⟩
  · intro y h
    simp [mkdate, daysBeforeMonth, daysBeforeMonthTable, h]
  · intro y h
    simp [mkdate, daysBeforeMonth, daysBeforeMonthTable, h]

/-- Witness for C9 at the leap year 2024 and the non-leap year 2023. -/
theorem dayofyear_encoding_witness :
    (mkdate 2024 12 31).yday0 = 365 ∧ (mkdate 2023 12 31).yday0 = 364 :=
  ⟨dayofyear_encoding.2.2.1 2024 (by decide), dayofyear_encoding.2.2.2 2023 (by decide)⟩

/-! ## Claim C10 -/

/-- C10: from_base returns 0 on the empty string for every valid base
without raising, and consequently parse("2024-") — a dot-free input whose
day field is empty — returns January 1 of year 2024 instead of failing. -/
theorem frombase_empty_and_empty_day :
    (∀ b : Nat, 1 < b → b ≤ 10 → frombase [] b = Except.ok 0) ∧
    to_datetime (("2024-").toList) = Except.ok ⟨2024, 0⟩ := by
  constructor
  · intro b h1 h2
    rw [frombase, if_pos ⟨h1, h2⟩]
    rfl
  · rfl

/-- Witness for C10 at base 7. -/
theorem frombase_empty_and_empty_day_witness :
    frombase [] 7 = Except.ok 0 :=
  frombase_empty_and_empty_day.1 7 (by decide) (by decide)

/-! ## Claim C2 -/

/-- C2 counterexample: the dot-free 5-character input "12345" does not
raise any error — to_datetime silently slices year = "1234" and day = ""
and returns January 1 of year 1234, a plausible-looking wrong date. -/
theorem to_datetime_short_no_error :
    to_datetime (("12345").toList) = Except.ok ⟨1234, 0⟩ := rfl

/-- C2 amended: to_datetime performs no shape validation on dot-free
input: any digit string of length at most 5 is sliced as year = first 4
characters and day = characters from index 5 (empty here), so whenever
the year slice parses to an in-range integer the input is silently
coerced to January 1 of that year; no MalformedDateString-like error
exists, and errors that do occur are plain ValueError kinds from int(),
from_base, or the datetime constructor. -/
theorem to_datetime_short_digital_coerces (s : List Char) (v : Int)
    (hlen : s.length ≤ 5) (hdig : ∀ c ∈ s, 48 ≤ c.toNat ∧ c.toNat ≤ 57)
    (hyear : pyInt (s.take 4) = Except.ok v) (h1 : 1 ≤ v) (h2 : v ≤ 9999) :
    to_datetime s = Except.ok ⟨v.toNat, 0⟩ := by
  have hstrip : pyStrip s = s :=
    pyStrip_eq_self (fun c hc => digit_not_space (hdig c hc).1 (hdig c hc).2)
  have hfind : s.findIdx? (fun c => c == '.') = none := by
    rw [List.findIdx?_eq_none_iff]
    intro c hc
    exact digit_not_dot (hdig c hc).1 (hdig c hc).2
  have hdrop : s.drop 5 = [] := List.drop_eq_nil_of_le hlen
  have hfb : frombase ([] : List Char) 7 = Except.ok 0 := rfl
  simp only [to_datetime, hstrip, hfind, hdrop, decodeParts, hfb, hyear]
  rw [if_pos ⟨h1, h2⟩, addDaysLoop_of_lt (daysInYear_pos v.toNat) 0,
    if_pos (by omega : v.toNat ≤ 9999)]

/-- Witness for the amended C2 at the 3-character input "123". -/
theorem to_datetime_short_digital_coerces_witness :
    to_datetime (("123").toList) = Except.ok ⟨123, 0⟩ :=
  to_datetime_short_digital_coerces (("123").toList) 123 (by decide)
    (by decide) (by rfl) (by decide) (by decide)

/-! ## Claim C1 -/

/-- C1 counterexample: a node with tag "a" carrying both the text "T" and
a child (tag "b" with text "U") renders without any error to a document
containing only the text payload; the child's tag "b" and its text "U"
are silently dropped from the output (the letters b and U occur nowhere
in it), and no structural error is raised — `write_xml` in the source has
no raise statement at all. -/
theorem write_xml_both_payloads_drops_children :
    write_xml (.jdict ['a'] none (some ['T']) [.jdict ['b'] none (some ['U']) []]) =
      xmlDecl ++ ('<' :: 'a' :: '>' :: 'T' :: '<' :: '/' :: 'a' :: '>' :: '\n' :: []) ∧
    ('b' ∉ write_xml (.jdict ['a'] none (some ['T']) [.jdict ['b'] none (some ['U']) []])) ∧
    ('U' ∉ write_xml (.jdict ['a'] none (some ['T']) [.jdict ['b'] none (some ['U']) []])) := by
  have h : write_xml (.jdict ['a'] none (some ['T']) [.jdict ['b'] none (some ['U']) []]) =
      xmlDecl ++ ('<' :: 'a' :: '>' :: 'T' :: '<' :: '/' :: 'a' :: '>' :: '\n' :: []) := by
    simp [write_xml, write_xmlGo, tagString]
  refine ⟨h, ?_, ?_⟩ <;> rw [h] <;> decide

/-- C1 amended: when a node carries both a text payload and a children
list, rendering raises no error and emits only the text — the output is
independent of the children, which are silently dropped. -/
theorem write_xml_text_overrides_children (tag t : List Char)
    (attribs : Option (List (List Char × List Char))) (value : List Jx)
    (pre : List Char) :
    write_xmlGo (.jdict tag attribs (some t) value) pre =
      (pre ++ tagString tag attribs ++ t ++ ('<' :: '/' :: tag ++ ['>', '\n']), false) := by
  simp [write_xmlGo]

/-! ## Claim C3 -/

/-- C3: render emits the fixed declaration line followed by a newline and
the recursive rendering with two spaces of indentation per level — for a
root node with one text-only child the output is the exact byte string of
the claim (first conjunct, for every TEXT); a text-carrying node closes
on the same line (second conjunct); a node with neither text nor children
renders as an empty tag pair on one line (third conjunct). -/
theorem render_shape :
    (∀ text : List Char,
      write_xml (.jdict (("root").toList) none none
          [.jdict (("child").toList) none (some text) []]) =
        (("<?xml version=\x271.0\x27 encoding=\x27utf-8\x27?>\n<root>\n  <child>").toList)
          ++ text ++ (("</child>\n</root>\n").toList)) ∧
    (∀ tag t pre : List Char,
      write_xmlGo (.jdict tag none (some t) []) pre =
        (pre ++ '<' :: tag ++ '>' :: t ++ '<' :: '/' :: tag ++ ['>', '\n'], false)) ∧
    (∀ tag pre : List Char,
      write_xmlGo (.jdict tag none none []) pre =
        (pre ++ '<' :: tag ++ '>' :: '<' :: '/' :: tag ++ ['>', '\n'], false)) := by
  refine ⟨?_, ?_, ?_⟩
  · intro text
    simp [write_xml, write_xmlGo, write_xmlItems, tagString, xmlDecl]
  · intro tag t pre
    simp [write_xmlGo, tagString]
  · intro tag pre
    simp [write_xmlGo, tagString]

/-! ## Claim C7 -/

theorem findIdx?_dot_take :
    ∀ (t : List Char) (i : Nat), t.findIdx? (fun c => c == '.') = some i →
      t.take i = t.takeWhile (fun c => !(c == '.')) ∧
      (t.dropWhile (fun c => !(c == '.'))).tail = t.drop (i + 1) ∧
      t.contains '.' = true := by
  intro t
  induction t with
  | nil => intro i h; simp at h
  | cons c cs ih =>
    intro i h
    rw [List.findIdx?_cons] at h
    by_cases hc : (c == '.') = true
    · rw [if_pos hc] at h
      obtain rfl : 0 = i := Option.some.inj h
      rw [beq_iff_eq] at hc
      subst hc
      refine ⟨by simp [List.takeWhile_cons], by simp [List.dropWhile_cons], by
        simp [List.contains_cons]⟩
    · rw [if_neg hc, List.findIdx?_succ] at h
      obtain ⟨j, hj, rfl⟩ := Option.map_eq_some'.mp h
      obtain ⟨h1, h2, h3⟩ := ih j hj
      have hc' : (c == '.') = false := by simpa using hc
      refine ⟨?_, ?_, ?_⟩
      · rw [List.take_succ_cons, List.takeWhile_cons, hc']
        simp [h1]
      · rw [List.drop_succ_cons, List.dropWhile_cons, hc']
        simpa using h2
      · rw [List.contains_cons, h3]
        simp

/-- C7: to_datetime follows exactly the spec's format-detection pipeline:
strip whitespace from the whole input, then — if a literal dot occurs —
split on the first dot with the day string before it and the year string
after it, otherwise slice the year from the first 4 characters and the
day from index 5 on; `parseSpec` is that pipeline written from the spec's
words and agrees with the source's `to_datetime` on every input. -/
theorem to_datetime_eq_parseSpec (s : List Char) : to_datetime s = parseSpec s := by
  simp only [to_datetime, parseSpec]
  cases h : (pyStrip s).findIdx? (fun c => c == '.') with
  | none =>
    have hcont : (pyStrip s).contains '.' = false := by
      rw [List.contains_eq_any_beq, List.any_eq_false]
      intro c hc
      have hnd : c ≠ '.' := by
        simpa using List.findIdx?_eq_none_iff.mp h c hc
      simp only [beq_iff_eq]
      exact fun hcc => hnd hcc.symm
    rw [if_neg (by rw [hcont]; simp)]
  | some i =>
    obtain ⟨h1, h2, h3⟩ := findIdx?_dot_take (pyStrip s) i h
    rw [if_pos h3]
    show decodeParts (List.take i (pyStrip s)) (List.drop (i + 1) (pyStrip s)) =
      decodeParts (List.takeWhile (fun c => !(c == '.')) (pyStrip s))
        ((List.dropWhile (fun c => !(c == '.')) (pyStrip s)).tail)
    rw [h1, ← h2]

/-! ## Claim C5 -/

theorem findIdx?_dot_append (D Y : List Char) (hD : ∀ c ∈ D, (c == '.') = false) :
    (D ++ '.' :: Y).findIdx? (fun c => c == '.') = some D.length := by
  induction D with
  | nil => simp [List.findIdx?_cons]
  | cons c cs ih =>
    rw [List.cons_append, List.findIdx?_cons,
      if_neg (by rw [hD c (List.mem_cons_self c cs)]; simp),
      List.findIdx?_succ, ih (fun x hx => hD x (List.mem_cons_of_mem c hx))]
    simp

theorem decodeParts_ok {D Y : List Char} {y k : Nat} (hfb : frombase D 7 = Except.ok k)
    (hpy : pyInt Y = Except.ok (y : Int)) (hy1 : 1 ≤ y) (hy2 : y ≤ 9999)
    (hk : k < daysInYear y) :
    decodeParts D Y = Except.ok ⟨y, k⟩ := by
  simp only [decodeParts, hfb, hpy]
  rw [if_pos (by constructor <;> omega)]
  simp only [Int.toNat_natCast]
  rw [addDaysLoop_of_lt hk k]
  simp only []
  rw [if_pos hy2]

theorem mkdate_yday_lt {y m d : Nat} (hm1 : 1 ≤ m) (hm2 : m ≤ 12) (hd1 : 1 ≤ d)
    (hd2 : d ≤ daysInMonth y m) : daysBeforeMonth y m + (d - 1) < daysInYear y := by
  cases hy : isleap y <;>
    (interval_cases m <;>
      simp_all [daysBeforeMonth, daysBeforeMonthTable, daysInMonth, daysInYear] <;> omega)

/-- C5: for every day of every year 2000 through 2024, parsing the
formatted date in either encoding reproduces the same calendar date —
stated both for the (year, 0-indexed day-of-year) view of a datetime and
for dates given by year, month and day through the datetime constructor. -/
theorem roundtrip_date_codec :
    (∀ y k : Nat, 2000 ≤ y → y ≤ 2024 → k < daysInYear y →
      to_datetime (to_string ⟨y, k⟩ false) = Except.ok ⟨y, k⟩ ∧
      to_datetime (to_string ⟨y, k⟩ true) = Except.ok ⟨y, k⟩) ∧
    (∀ y m d : Nat, 2000 ≤ y → y ≤ 2024 → 1 ≤ m → m ≤ 12 → 1 ≤ d →
      d ≤ daysInMonth y m →
      to_datetime (to_string (mkdate y m d) false) = Except.ok (mkdate y m d) ∧
      to_datetime (to_string (mkdate y m d) true) = Except.ok (mkdate y m d)) := by
  have main : ∀ y k : Nat, 2000 ≤ y → y ≤ 2024 → k < daysInYear y →
      to_datetime (to_string ⟨y, k⟩ false) = Except.ok ⟨y, k⟩ ∧
      to_datetime (to_string ⟨y, k⟩ true) = Except.ok ⟨y, k⟩ := by
    intro y k hy1 hy2 hk
    have hkle : k ≤ 366 := by
      have := daysInYear_pos y
      rw [daysInYear] at hk
      revert hk
      split <;> omega
    have hD := tobase_mem_toNat (n := k) (b := 7) (by omega) (by omega)
    have hDd : ∀ c ∈ tobase k 7, 48 ≤ c.toNat ∧ c.toNat ≤ 57 := by
      intro c hc
      have := hD c hc
      omega
    have hY := pyStr_digits y
    constructor
    · have hs : to_string ⟨y, k⟩ false = tobase k 7 ++ '.' :: pyStr y := by
        simp [to_string, tm_yday]
      rw [hs]
      have hstrip : pyStrip (tobase k 7 ++ '.' :: pyStr y) =
          tobase k 7 ++ '.' :: pyStr y := by
        apply pyStrip_eq_self
        intro c hc
        rcases List.mem_append.mp hc with hcD | hcY
        · exact digit_not_space (hDd c hcD).1 (hDd c hcD).2
        · rcases List.mem_cons.mp hcY with rfl | hcY
          · decide
          · exact digit_not_space (hY c hcY).1 (hY c hcY).2
      have hfind := findIdx?_dot_append (tobase k 7) (pyStr y)
        (fun c hc => digit_not_dot (hDd c hc).1 (hDd c hc).2)
      have htake : List.take (tobase k 7).length (tobase k 7 ++ '.' :: pyStr y) =
          tobase k 7 := List.take_left _ _
      have hdrop : List.drop ((tobase k 7).length + 1) (tobase k 7 ++ '.' :: pyStr y) =
          pyStr y := by
        rw [show tobase k 7 ++ '.' :: pyStr y = (tobase k 7 ++ ['.']) ++ pyStr y from
          by simp]
        rw [show (tobase k 7).length + 1 = (tobase k 7 ++ ['.']).length from by simp]
        exact List.drop_left _ _
      simp only [to_datetime, hstrip, hfind]
      show decodeParts (List.take (tobase k 7).length (tobase k 7 ++ '.' :: pyStr y))
          (List.drop ((tobase k 7).length + 1) (tobase k 7 ++ '.' :: pyStr y)) =
          Except.ok ⟨y, k⟩
      rw [htake, hdrop]
      exact decodeParts_ok (frombase_tobase (by omega) (by omega)) (pyInt_pyStr y)
        (by omega) (by omega) hk
    · have hs : to_string ⟨y, k⟩ true = pyStr y ++ '-' :: padTo4 (tobase k 7) := by
        simp [to_string, tm_yday]
      rw [hs]
      have hP : ∀ c ∈ padTo4 (tobase k 7), 48 ≤ c.toNat ∧ c.toNat ≤ 57 := by
        intro c hc
        simp only [padTo4, List.mem_append, List.mem_replicate] at hc
        rcases hc with ⟨_, rfl⟩ | hcD
        · exact ⟨by decide, by decide⟩
        · exact hDd c hcD
      have hstrip : pyStrip (pyStr y ++ '-' :: padTo4 (tobase k 7)) =
          pyStr y ++ '-' :: padTo4 (tobase k 7) := by
        apply pyStrip_eq_self
        intro c hc
        rcases List.mem_append.mp hc with hcY | hcP
        · exact digit_not_space (hY c hcY).1 (hY c hcY).2
        · rcases List.mem_cons.mp hcP with rfl | hcP
          · decide
          · exact digit_not_space (hP c hcP).1 (hP c hcP).2
      have hfind : (pyStr y ++ '-' :: padTo4 (tobase k 7)).findIdx?
          (fun c => c == '.') = none := by
        rw [List.findIdx?_eq_none_iff]
        intro c hc
        rcases List.mem_append.mp hc with hcY | hcP
        · exact digit_not_dot (hY c hcY).1 (hY c hcY).2
        · rcases List.mem_cons.mp hcP with rfl | hcP
          · decide
          · exact digit_not_dot (hP c hcP).1 (hP c hcP).2
      have hYlen : (pyStr y).length = 4 := pyStr_length_four (by omega) (by omega)
      have htake : List.take 4 (pyStr y ++ '-' :: padTo4 (tobase k 7)) = pyStr y := by
        rw [← hYlen]
        exact List.take_left _ _
      have hdrop : List.drop 5 (pyStr y ++ '-' :: padTo4 (tobase k 7)) =
          padTo4 (tobase k 7) := by
        rw [show pyStr y ++ '-' :: padTo4 (tobase k 7) =
          (pyStr y ++ ['-']) ++ padTo4 (tobase k 7) from by simp]
        rw [show (5 : Nat) = (pyStr y ++ ['-']).length from by simp [hYlen]]
        exact List.drop_left _ _
      have hfbP : frombase (padTo4 (tobase k 7)) 7 = Except.ok k := by
        rw [frombase_padTo4 (by omega) (by omega) hD]
        exact frombase_tobase (by omega) (by omega)
      simp only [to_datetime, hstrip, hfind]
      show decodeParts (List.drop 5 (pyStr y ++ '-' :: padTo4 (tobase k 7)))
          (List.take 4 (pyStr y ++ '-' :: padTo4 (tobase k 7))) = Except.ok ⟨y, k⟩
      rw [htake, hdrop]
      exact decodeParts_ok hfbP (pyInt_pyStr y) (by omega) (by omega) hk
  refine ⟨main, ?_⟩
  intro y m d hy1 hy2 hm1 hm2 hd1 hd2
  have hlt := mkdate_yday_lt (y := y) hm1 hm2 hd1 hd2
  exact main y (daysBeforeMonth y m + (d - 1)) hy1 hy2 hlt

/-- Witness for C5 at the date (2024, 60) in the day-of-year view and at
February 29, 2024 in the month/day view. -/
theorem roundtrip_date_codec_witness :
    to_datetime (to_string ⟨2024, 60⟩ false) = Except.ok ⟨2024, 60⟩ ∧
    to_datetime (to_string (mkdate 2024 2 29) true) = Except.ok (mkdate 2024 2 29) :=
  ⟨(roundtrip_date_codec.1 2024 60 (by decide) (by decide) (by decide)).1,
   (roundtrip_date_codec.2 2024 2 29 (by decide) (by decide) (by decide) (by decide)
     (by decide) (by decide)).2⟩

end Rss
